import Mathlib

/-!
# Student record store (`src/main.c`): hash table with collision chaining

Shallow embedding of the core of `main.c`.

* A C `int` identifier is an `Int`.  The only arithmetic done on identifiers is
  `id % TABLE_SIZE`, which cannot overflow, so no wrap-around is involved; C's `%`
  truncates toward zero and is `Int.tmod`.
* A `char` buffer is a `List Char`; the text of a C string is the run of characters
  before the first NUL (`cstr`).
* A chain `Node* -> Node* -> ... -> NULL` is a `List Student` in head-to-tail order.
* The global `Node *hashTable[TABLE_SIZE]` is a function `Fin TABLE_SIZE → Chain`;
  the functions that read or write it take the table and return the new one.
* `hashTable[index]` with `index` outside `0 .. TABLE_SIZE - 1` is an access outside
  the array.  C gives it no meaning, so the embedded operations return `none` there.
* `malloc` is taken to succeed (on failure `create_node` terminates the process).
* What a function prints is modelled by the value it returns (`Status`, the found
  node, the listed rows).
-/

namespace StudentStore

/-- Table size `M`, from `#define TABLE_SIZE 50`. -/
abbrev TABLE_SIZE : Nat := 50

/-- The NUL character terminating a C string. -/
def NUL : Char := Char.ofNat 0

/-- Text of the C string stored in a character buffer: the characters before the
first NUL (what `printf("%s", buf)` prints). -/
def cstr (buf : List Char) : List Char :=
  buf.takeWhile (fun c => c != NUL)

/-- Result of `strncpy(dst, src, n)`: the `n` characters written to `dst`, namely the first
`n` characters of the text of `src`, padded with NUL up to `n` when the text is
shorter. -/
def strncpy (src : List Char) (n : Nat) : List Char :=
  (cstr src).take n ++ List.replicate (n - ((cstr src).take n).length) NUL

/-- Record `struct Student { int id; char name[50]; char grade[5]; }`. -/
structure Student where
  id : Int
  name : List Char
  grade : List Char
deriving DecidableEq, Repr

/-- A bucket's linked list of `Node`s, head first; `[]` is the `NULL` head. -/
abbrev Chain := List Student

/-- The table `Node *hashTable[TABLE_SIZE]`. -/
abbrev HashTable := Fin TABLE_SIZE → Chain

/-- Outcome reported by `insert_student` and `delete_student` (the message printed):
`success` for "Success: ...", `duplicateId` for "Error: Student ID %d already exists.",
`notFound` for "Error: Student ID %d not found.". -/
inductive Status where
  | success
  | duplicateId
  | notFound
deriving DecidableEq, Repr

/-- Function `int hash(int id) { return id % TABLE_SIZE; }` with C's truncating remainder. -/
def hash (id : Int) : Int :=
  Int.tmod id TABLE_SIZE

/-- The array element designated by `hashTable[index]`: `none` when `index` lies
outside the array. -/
def slot (index : Int) : Option (Fin TABLE_SIZE) :=
  if h : 0 ≤ index ∧ index < TABLE_SIZE then some ⟨index.toNat, by omega⟩ else none

/-- Function `create_node`: the payload of the freshly allocated node (its `next` link is set
by the caller).  `strncpy(name, 49); name[49] = 0; strncpy(grade, 4); grade[4] = 0`. -/
def create_node (id : Int) (name grade : List Char) : Student :=
  { id := id
    name := strncpy name 49 ++ [NUL]
    grade := strncpy grade 4 ++ [NUL] }

/-- The duplicate-check loop of `insert_student`: does some node of the chain carry
`id`? -/
def has_id (id : Int) : Chain → Bool
  | [] => false
  | n :: rest => if n.id = id then true else has_id id rest

/-- Function `insert_student`: `none` when `hashTable[hash(id)]` is outside the array. -/
def insert_student (t : HashTable) (id : Int) (name grade : List Char) :
    Option (Status × HashTable) :=
  match slot (hash id) with
  | none => none
  | some index =>
    let head := t index
    if has_id id head then some (Status.duplicateId, t)
    else some (Status.success, Function.update t index (create_node id name grade :: head))

/-- The traversal loop of `search_student`: the first node of the chain carrying
`id`, or `none` for the `NULL` return. -/
def search_chain (id : Int) : Chain → Option Student
  | [] => none
  | n :: rest => if n.id = id then some n else search_chain id rest

/-- Function `search_student`: outer `none` when `hashTable[hash(id)]` is outside the array;
otherwise the node found (`some (some n)`) or `NULL` (`some none`). -/
def search_student (t : HashTable) (id : Int) : Option (Option Student) :=
  match slot (hash id) with
  | none => none
  | some index => some (search_chain id (t index))

/-- The search-and-remove loop of `delete_student` on one chain: the chain with the
first node carrying `id` unlinked (the head's successor becomes the head, or the
previous node is linked to the successor), or `none` when the chain is exhausted. -/
def delete_chain (id : Int) : Chain → Option Chain
  | [] => none
  | n :: rest =>
    if n.id = id then some rest
    else match delete_chain id rest with
      | none => none
      | some rest' => some (n :: rest')

/-- Function `delete_student`: `none` when `hashTable[hash(id)]` is outside the array. -/
def delete_student (t : HashTable) (id : Int) : Option (Status × HashTable) :=
  match slot (hash id) with
  | none => none
  | some index =>
    match delete_chain id (t index) with
    | none => some (Status.notFound, t)
    | some chain => some (Status.success, Function.update t index chain)

/-- The rows printed by the loops of `display_all_students`: buckets `0 .. TABLE_SIZE - 1`
in increasing order, each chain from head to tail. -/
def list_all (t : HashTable) : List Student :=
  (List.finRange TABLE_SIZE).flatMap t

/-- Function `display_all_students`: the rows printed, and whether the line
"The system contains no student records." is printed (`count == 0`).  The counter
`count` is incremented once per row; it is a natural number here, which agrees with the
C `int` for every table of fewer than 2^31 nodes. -/
def display_all_students (t : HashTable) : List Student × Bool :=
  let rows := list_all t
  let count := rows.length
  (rows, count == 0)

/-- Function `initialize_table`: every bucket head is `NULL`. -/
def initialize_table : HashTable :=
  fun _ => []

/-- What `search_student` prints for a found node: the identifier and the texts of
the name and grade fields. -/
def view (s : Student) : Int × List Char × List Char :=
  (s.id, cstr s.name, cstr s.grade)

/-- Stores reachable from the empty store by `insert_student` and `delete_student`
calls, whatever their outcome.  A call whose table access falls outside the array has
no defined result and yields no successor store. -/
inductive Reachable : HashTable → Prop
  | init : Reachable initialize_table
  | insert {t t' : HashTable} {st : Status} (id : Int) (name grade : List Char) :
      Reachable t → insert_student t id name grade = some (st, t') → Reachable t'
  | delete {t t' : HashTable} {st : Status} (id : Int) :
      Reachable t → delete_student t id = some (st, t') → Reachable t'

/-- A record with identifier `id` is present somewhere in the store. -/
def present (t : HashTable) (id : Int) : Prop :=
  ∃ s ∈ list_all t, s.id = id

instance (t : HashTable) (id : Int) : Decidable (present t id) := by
  unfold present; infer_instance

/-- Bucket placement: a record stored in bucket `i` has `hashTable[hash(id)]`
designating bucket `i`. -/
def Placed (t : HashTable) : Prop :=
  ∀ i, ∀ s ∈ t i, slot (hash s.id) = some i

/-- Chain-wise uniqueness: no chain holds two nodes with the same identifier. -/
def ChainUniq (t : HashTable) : Prop :=
  ∀ i, ((t i).map Student.id).Nodup

/-- A caller issuing `insert_student` calls one after the other (as `main_menu` does
for menu choice 1): the outcomes in call order and the final store; `none` as soon as
one call has no defined result. -/
def insert_seq (t : HashTable) :
    List (Int × List Char × List Char) → Option (List Status × HashTable)
  | [] => some ([], t)
  | (id, name, grade) :: rest =>
    match insert_student t id name grade with
    | none => none
    | some (st, t') =>
      match insert_seq t' rest with
      | none => none
      | some (sts, t'') => some (st :: sts, t'')

/-! ## The loops of `display_all_students` and of the exit clean-up, step by step -/

/-- Inner `while (current != NULL)` loop of `display_all_students` on one chain: each
node is printed (appended to the rows) and `count` is incremented, then `current`
moves to `current->next`. -/
def display_while : Chain → List Student × Nat → List Student × Nat
  | [], acc => acc
  | n :: rest, acc => display_while rest (acc.1 ++ [n], acc.2 + 1)

/-- Outer `for (int i = 0; i < TABLE_SIZE; i++)` loop of `display_all_students`,
started at index `i` with `fuel` bounding the number of iterations. -/
def display_for (t : HashTable) : Nat → Nat → List Student × Nat → List Student × Nat
  | 0, _, acc => acc
  | fuel + 1, i, acc =>
    if h : i < TABLE_SIZE then
      display_for t fuel (i + 1) (display_while (t ⟨i, h⟩) acc)
    else acc

/-- Function `display_all_students` run loop by loop from `count = 0` and `i = 0`: the
rows printed and whether the no-records line is printed (`count == 0`). -/
def display_all_students_run (t : HashTable) : List Student × Bool :=
  let r := display_for t TABLE_SIZE 0 ([], 0)
  (r.1, r.2 == 0)

/-- Inner `while (current != NULL)` loop of the exit clean-up in `main_menu` on one
chain: every node is passed to `free`; the nodes released so far are collected. -/
def teardown_while : Chain → List Student → List Student
  | [], freed => freed
  | n :: rest, freed => teardown_while rest (freed ++ [n])

/-- Outer `for (int i = 0; i < TABLE_SIZE; i++)` loop of the exit clean-up, started at
index `i`: the chain of bucket `i` is released and `hashTable[i] = NULL` is stored. -/
def teardown_for : Nat → Nat → HashTable × List Student → HashTable × List Student
  | 0, _, acc => acc
  | fuel + 1, i, acc =>
    if h : i < TABLE_SIZE then
      teardown_for fuel (i + 1)
        (Function.update acc.1 ⟨i, h⟩ [], teardown_while (acc.1 ⟨i, h⟩) acc.2)
    else acc

/-- The exit clean-up of `main_menu` (menu choice 5): the table it leaves and the nodes
it released, in order. -/
def teardown (t : HashTable) : HashTable × List Student :=
  teardown_for TABLE_SIZE 0 (t, [])

/-! ## Reference definitions for the refinement claims -/

/-- Concatenation of the bucket chains for the bucket indices `0, 1, ..., M - 1` in
increasing order, each chain from head to tail (the enumeration order in the words of
the specification). -/
def chains_concat (t : HashTable) : List Student :=
  ((List.range TABLE_SIZE).map
    (fun i => if h : i < TABLE_SIZE then t ⟨i, h⟩ else [])).flatten

/-- Full scan: the first record with identifier `id` in the sequence produced by
`list_all`, if any. -/
def scan_all (t : HashTable) (id : Int) : Option Student :=
  (list_all t).find? (fun s => decide (s.id = id))

/-- Stores reachable from the empty store by `insert_student` and `delete_student`
calls whose identifiers are all non-negative. -/
inductive ReachableNonneg : HashTable → Prop
  | init : ReachableNonneg initialize_table
  | insert {t t' : HashTable} {st : Status} (id : Int) (name grade : List Char) :
      ReachableNonneg t → 0 ≤ id → insert_student t id name grade = some (st, t') →
      ReachableNonneg t'
  | delete {t t' : HashTable} {st : Status} (id : Int) :
      ReachableNonneg t → 0 ≤ id → delete_student t id = some (st, t') →
      ReachableNonneg t'

/-! ## Example stores -/

/-- Example store: the empty store after `insert_student(101, "Alice", "A")`. -/
def store_alice : HashTable :=
  Function.update initialize_table 1 [create_node 101 ['A', 'l', 'i', 'c', 'e'] ['A']]

/-- Example store: the empty store after `insert_student(1, "a", "A")`. -/
def store_one : HashTable :=
  Function.update initialize_table 1 [create_node 1 ['a'] ['A']]

/-- Example store: `store_one` after `insert_student(51, "b", "B")`. -/
def store_two : HashTable :=
  Function.update store_one 1 [create_node 51 ['b'] ['B'], create_node 1 ['a'] ['A']]

/-- Example store: `store_two` after `insert_student(101, "c", "C")`; identifiers 1, 51
and 101 all lie in bucket 1. -/
def store_collide : HashTable :=
  Function.update store_two 1
    [create_node 101 ['c'] ['C'], create_node 51 ['b'] ['B'], create_node 1 ['a'] ['A']]

/-- The three insert calls that build `store_collide`. -/
def ops_collide : List (Int × List Char × List Char) :=
  [(1, ['a'], ['A']), (51, ['b'], ['B']), (101, ['c'], ['C'])]

/-! ## Chain loops -/

theorem has_id_iff (id : Int) (c : Chain) : has_id id c = true ↔ ∃ s ∈ c, s.id = id := by
  induction c with
  | nil => simp [has_id]
  | cons n rest ih =>
    by_cases h : n.id = id
    · simp [has_id, h]
    · simp [has_id, h, ih]

theorem has_id_false_iff (id : Int) (c : Chain) :
    has_id id c = false ↔ ∀ s ∈ c, s.id ≠ id := by
  rw [← Bool.not_eq_true, has_id_iff]
  simp

theorem has_id_iff_mem (id : Int) (c : Chain) :
    has_id id c = true ↔ id ∈ c.map Student.id := by
  rw [has_id_iff]; simp

theorem search_chain_eq_none (id : Int) (c : Chain) :
    search_chain id c = none ↔ has_id id c = false := by
  induction c with
  | nil => simp [search_chain, has_id]
  | cons n rest ih =>
    by_cases h : n.id = id
    · simp [search_chain, has_id, h]
    · simp [search_chain, has_id, h, ih]

theorem search_chain_some {id : Int} {c : Chain} {s : Student}
    (h : search_chain id c = some s) : s ∈ c ∧ s.id = id := by
  induction c with
  | nil => simp [search_chain] at h
  | cons n rest ih =>
    by_cases hn : n.id = id
    · simp [search_chain, hn] at h
      subst h
      exact ⟨List.mem_cons_self _ _, hn⟩
    · simp [search_chain, hn] at h
      exact ⟨List.mem_cons_of_mem _ (ih h).1, (ih h).2⟩

theorem search_chain_isSome (id : Int) (c : Chain) :
    (search_chain id c).isSome = has_id id c := by
  induction c with
  | nil => simp [search_chain, has_id]
  | cons n rest ih =>
    by_cases h : n.id = id
    · simp [search_chain, has_id, h]
    · simp [search_chain, has_id, h, ih]

/-- In a chain without repeated identifiers, the search returns any node that
carries the identifier. -/
theorem search_chain_of_mem {c : Chain} (hu : (c.map Student.id).Nodup) {s : Student}
    (hs : s ∈ c) : search_chain s.id c = some s := by
  induction c with
  | nil => simp at hs
  | cons n rest ih =>
    simp only [List.map_cons, List.nodup_cons] at hu
    rcases List.mem_cons.1 hs with rfl | hmem
    · simp [search_chain]
    · have hne : n.id ≠ s.id := by
        intro heq
        exact hu.1 (heq ▸ List.mem_map_of_mem Student.id hmem)
      simp [search_chain, hne, ih hu.2 hmem]

theorem delete_chain_eq_none (id : Int) (c : Chain) :
    delete_chain id c = none ↔ has_id id c = false := by
  induction c with
  | nil => simp [delete_chain, has_id]
  | cons n rest ih =>
    by_cases h : n.id = id
    · simp [delete_chain, has_id, h]
    · cases hd : delete_chain id rest with
      | none => simp [delete_chain, has_id, h, hd, ← ih]
      | some r =>
        have : ¬ has_id id rest = false := fun hf => by
          rw [← ih, hd] at hf; cases hf
        simp [delete_chain, has_id, h, hd, this]

/-- The chain left by the removal loop is the chain with the first node carrying `id`
erased. -/
theorem delete_chain_some {id : Int} {c c' : Chain} (h : delete_chain id c = some c') :
    c' = c.eraseP (fun s => decide (s.id = id)) := by
  induction c generalizing c' with
  | nil => simp [delete_chain] at h
  | cons n rest ih =>
    by_cases hn : n.id = id
    · simp [delete_chain, hn] at h
      simp [List.eraseP_cons, hn, h]
    · cases hd : delete_chain id rest with
      | none => simp [delete_chain, hn, hd] at h
      | some r =>
        simp [delete_chain, hn, hd] at h
        simp [List.eraseP_cons, hn, ← h, ih hd]

theorem delete_chain_sublist {id : Int} {c c' : Chain} (h : delete_chain id c = some c') :
    c'.Sublist c := by
  rw [delete_chain_some h]; exact List.eraseP_sublist _

theorem delete_chain_length {id : Int} {c c' : Chain} (h : delete_chain id c = some c') :
    c'.length + 1 = c.length := by
  induction c generalizing c' with
  | nil => simp [delete_chain] at h
  | cons n rest ih =>
    by_cases hn : n.id = id
    · simp [delete_chain, hn] at h
      simp [h]
    · cases hd : delete_chain id rest with
      | none => simp [delete_chain, hn, hd] at h
      | some r =>
        simp [delete_chain, hn, hd] at h
        simp [← h, ih hd]

/-- Removing `id` from a chain does not change what a search for another identifier
returns. -/
theorem search_chain_delete_chain {id id' : Int} (hne : id ≠ id') {c c' : Chain}
    (h : delete_chain id c = some c') : search_chain id' c' = search_chain id' c := by
  induction c generalizing c' with
  | nil => simp [delete_chain] at h
  | cons n rest ih =>
    by_cases hn : n.id = id
    · simp [delete_chain, hn] at h
      have : n.id ≠ id' := hn ▸ hne
      simp [search_chain, this, h]
    · cases hd : delete_chain id rest with
      | none => simp [delete_chain, hn, hd] at h
      | some r =>
        simp [delete_chain, hn, hd] at h
        subst h
        by_cases hn' : n.id = id'
        · simp [search_chain, hn']
        · simp [search_chain, hn', ih hd]

/-- In a chain without repeated identifiers, no node carries `id` after its removal. -/
theorem has_id_delete_chain {id : Int} {c c' : Chain} (hu : (c.map Student.id).Nodup)
    (h : delete_chain id c = some c') : has_id id c' = false := by
  induction c generalizing c' with
  | nil => simp [delete_chain] at h
  | cons n rest ih =>
    simp only [List.map_cons, List.nodup_cons] at hu
    by_cases hn : n.id = id
    · simp [delete_chain, hn] at h
      subst h
      rw [← Bool.not_eq_true, has_id_iff_mem]
      exact hn ▸ hu.1
    · cases hd : delete_chain id rest with
      | none => simp [delete_chain, hn, hd] at h
      | some r =>
        simp [delete_chain, hn, hd] at h
        subst h
        simp [has_id, hn, ih hu.2 hd]

/-! ## Table indexing -/

theorem mem_list_all (t : HashTable) (s : Student) : s ∈ list_all t ↔ ∃ i, s ∈ t i := by
  simp [list_all, List.mem_finRange]

theorem present_iff (t : HashTable) (id : Int) :
    present t id ↔ ∃ i, has_id id (t i) = true := by
  unfold present
  constructor
  · rintro ⟨s, hs, hid⟩
    obtain ⟨i, hi⟩ := (mem_list_all t s).1 hs
    exact ⟨i, (has_id_iff id (t i)).2 ⟨s, hi, hid⟩⟩
  · rintro ⟨i, hi⟩
    obtain ⟨s, hs, hid⟩ := (has_id_iff id (t i)).1 hi
    exact ⟨s, (mem_list_all t s).2 ⟨i, hs⟩, hid⟩

/-- When `hashTable[hash(id)]` is inside the array, its index is the non-negative
remainder of `id` modulo `TABLE_SIZE`. -/
theorem slot_hash_emod {id : Int} {i : Fin TABLE_SIZE} (h : slot (hash id) = some i) :
    id % 50 = (i : Int) := by
  unfold slot at h
  split at h
  · rename_i hr
    simp only [Option.some.injEq] at h
    subst h
    simp only [hash] at hr ⊢
    cases id with
    | ofNat n =>
      have : Int.tmod (Int.ofNat n) (50 : Nat) = ((n % 50 : Nat) : Int) := rfl
      simp only [TABLE_SIZE] at hr ⊢
      rw [this] at hr ⊢
      simp only [Int.ofNat_eq_coe]
      omega
    | negSucc n =>
      have : Int.tmod (Int.negSucc n) (50 : Nat) = -(((n + 1) % 50 : Nat) : Int) := rfl
      simp only [TABLE_SIZE] at hr ⊢
      rw [this] at hr ⊢
      have h0 : (n + 1) % 50 = 0 := by omega
      rw [h0]
      simp only [Int.negSucc_eq]
      omega
  · cases h

/-- For a non-negative identifier `hashTable[hash(id)]` is inside the array. -/
theorem slot_hash_of_nonneg {id : Int} (h : 0 ≤ id) : ∃ i, slot (hash id) = some i := by
  have h1 : 0 ≤ hash id := Int.tmod_nonneg _ h
  have h2 : hash id < 50 := Int.tmod_lt_of_pos id (by decide)
  unfold slot
  rw [dif_pos ⟨h1, h2⟩]
  exact ⟨_, rfl⟩

/-- For a negative identifier that is not a multiple of `TABLE_SIZE`, `hash` is
negative and `hashTable[hash(id)]` is outside the array. -/
theorem slot_hash_of_neg {id : Int} (h : id < 0) (hm : id % 50 ≠ 0) :
    hash id < 0 ∧ slot (hash id) = none := by
  have hlt : hash id < 0 := by
    cases id with
    | ofNat n => simp only [Int.ofNat_eq_coe] at h; omega
    | negSucc n =>
      have : hash (Int.negSucc n) = -(((n + 1) % 50 : Nat) : Int) := rfl
      rw [this]
      simp only [Int.negSucc_eq] at hm
      omega
  refine ⟨hlt, ?_⟩
  unfold slot
  rw [dif_neg]
  omega

theorem slot_eq_of_placed {t : HashTable} (hp : Placed t) {i j : Fin TABLE_SIZE}
    {s : Student} (hi : s ∈ t i) (hj : s ∈ t j) : i = j := by
  have h1 := hp i s hi
  have h2 := hp j s hj
  rw [h1] at h2
  exact Option.some.inj h2

/-- In a store with correct bucket placement, an identifier present anywhere is
present in the chain its hash designates. -/
theorem present_placed {t : HashTable} (hp : Placed t) {id : Int} (h : present t id) :
    ∃ i, slot (hash id) = some i ∧ has_id id (t i) = true := by
  obtain ⟨s, hs, hid⟩ := h
  obtain ⟨i, hi⟩ := (mem_list_all t s).1 hs
  refine ⟨i, hid ▸ hp i s hi, (has_id_iff id (t i)).2 ⟨s, hi, hid⟩⟩

/-! ## Shape of the results of the operations -/

theorem insert_student_cases {t t' : HashTable} {id : Int} {name grade : List Char}
    {st : Status} (h : insert_student t id name grade = some (st, t')) :
    ∃ i, slot (hash id) = some i ∧
      ((has_id id (t i) = true ∧ st = Status.duplicateId ∧ t' = t) ∨
       (has_id id (t i) = false ∧ st = Status.success ∧
         t' = Function.update t i (create_node id name grade :: t i))) := by
  unfold insert_student at h
  cases hs : slot (hash id) with
  | none => simp [hs] at h
  | some i =>
    refine ⟨i, rfl, ?_⟩
    simp only [hs] at h
    by_cases hd : has_id id (t i) = true
    · simp [hd] at h
      exact Or.inl ⟨hd, h.1.symm, h.2.symm⟩
    · simp [hd] at h
      exact Or.inr ⟨by simpa using hd, h.1.symm, h.2.symm⟩

theorem delete_student_cases {t t' : HashTable} {id : Int} {st : Status}
    (h : delete_student t id = some (st, t')) :
    ∃ i, slot (hash id) = some i ∧
      ((delete_chain id (t i) = none ∧ st = Status.notFound ∧ t' = t) ∨
       (∃ c, delete_chain id (t i) = some c ∧ st = Status.success ∧
         t' = Function.update t i c)) := by
  unfold delete_student at h
  cases hs : slot (hash id) with
  | none => simp [hs] at h
  | some i =>
    refine ⟨i, rfl, ?_⟩
    simp only [hs] at h
    cases hd : delete_chain id (t i) with
    | none =>
      simp [hd] at h
      exact Or.inl ⟨rfl, h.1.symm, h.2.symm⟩
    | some c =>
      simp [hd] at h
      exact Or.inr ⟨c, rfl, h.1.symm, h.2.symm⟩

/-! ## Invariants -/

theorem placed_init : Placed initialize_table := by
  intro i s hs
  simp [initialize_table] at hs

theorem chainUniq_init : ChainUniq initialize_table := by
  intro i
  simp [initialize_table]

theorem placed_insert {t t' : HashTable} {id : Int} {name grade : List Char} {st : Status}
    (hp : Placed t) (h : insert_student t id name grade = some (st, t')) : Placed t' := by
  obtain ⟨i, hs, hc | hc⟩ := insert_student_cases h
  · rw [hc.2.2]; exact hp
  · rw [hc.2.2]
    intro j s hmem
    by_cases hj : j = i
    · subst hj
      rw [Function.update_same] at hmem
      rcases List.mem_cons.1 hmem with rfl | hm
      · exact hs
      · exact hp j s hm
    · rw [Function.update_noteq hj] at hmem
      exact hp j s hmem

theorem chainUniq_insert {t t' : HashTable} {id : Int} {name grade : List Char}
    {st : Status} (hu : ChainUniq t) (h : insert_student t id name grade = some (st, t')) :
    ChainUniq t' := by
  obtain ⟨i, _, hc | hc⟩ := insert_student_cases h
  · rw [hc.2.2]; exact hu
  · rw [hc.2.2]
    intro j
    by_cases hj : j = i
    · subst hj
      rw [Function.update_same, List.map_cons, List.nodup_cons]
      refine ⟨?_, hu j⟩
      have hn := hc.1
      rw [← Bool.not_eq_true, has_id_iff_mem] at hn
      exact hn
    · rw [Function.update_noteq hj]
      exact hu j

theorem placed_delete {t t' : HashTable} {id : Int} {st : Status}
    (hp : Placed t) (h : delete_student t id = some (st, t')) : Placed t' := by
  obtain ⟨i, _, hc | ⟨c, hd, _, ht⟩⟩ := delete_student_cases h
  · rw [hc.2.2]; exact hp
  · rw [ht]
    intro j s hmem
    by_cases hj : j = i
    · subst hj
      rw [Function.update_same] at hmem
      exact hp j s ((delete_chain_sublist hd).subset hmem)
    · rw [Function.update_noteq hj] at hmem
      exact hp j s hmem

theorem chainUniq_delete {t t' : HashTable} {id : Int} {st : Status}
    (hu : ChainUniq t) (h : delete_student t id = some (st, t')) : ChainUniq t' := by
  obtain ⟨i, _, hc | ⟨c, hd, _, ht⟩⟩ := delete_student_cases h
  · rw [hc.2.2]; exact hu
  · rw [ht]
    intro j
    by_cases hj : j = i
    · subst hj
      rw [Function.update_same]
      exact ((delete_chain_sublist hd).map Student.id).nodup (hu j)
    · rw [Function.update_noteq hj]
      exact hu j

theorem reachable_inv {t : HashTable} (h : Reachable t) : Placed t ∧ ChainUniq t := by
  induction h with
  | init => exact ⟨placed_init, chainUniq_init⟩
  | insert id name grade _ hstep ih =>
    exact ⟨placed_insert ih.1 hstep, chainUniq_insert ih.2 hstep⟩
  | delete id _ hstep ih =>
    exact ⟨placed_delete ih.1 hstep, chainUniq_delete ih.2 hstep⟩

/-- With correct placement and chain-wise uniqueness, the identifiers listed by
`list_all` are pairwise distinct. -/
theorem nodup_ids_of_inv {t : HashTable} (hp : Placed t) (hu : ChainUniq t) :
    ((list_all t).map Student.id).Nodup := by
  unfold list_all
  rw [List.map_flatMap, List.nodup_flatMap]
  refine ⟨fun i _ => hu i, ?_⟩
  refine (List.nodup_finRange TABLE_SIZE).pairwise_of_forall_ne ?_
  intro i _ j _ hij
  show List.Disjoint ((t i).map Student.id) ((t j).map Student.id)
  intro x hxi hxj
  obtain ⟨a, ha, rfl⟩ := List.mem_map.1 hxi
  obtain ⟨b, hb, hab⟩ := List.mem_map.1 hxj
  have h1 := hp i a ha
  have h2 := hp j b hb
  rw [hab, h1] at h2
  exact hij (Option.some.inj h2)

/-! ## Counting the listed rows -/

theorem length_flatMap_update (t : HashTable) (j : Fin TABLE_SIZE) (c : Chain) :
    ∀ l : List (Fin TABLE_SIZE), l.Nodup →
      (j ∈ l → ((l.flatMap (Function.update t j c)).length + (t j).length
          = (l.flatMap t).length + c.length)) ∧
      (j ∉ l → (l.flatMap (Function.update t j c)).length = (l.flatMap t).length) := by
  intro l
  induction l with
  | nil => intro _; simp
  | cons a l ih =>
    intro hnd
    rw [List.nodup_cons] at hnd
    obtain ⟨ih1, ih2⟩ := ih hnd.2
    constructor
    · intro hj
      by_cases ha : a = j
      · subst ha
        have := ih2 hnd.1
        simp only [List.flatMap_cons, List.length_append, Function.update_same]
        omega
      · have hjl : j ∈ l := by
          rcases List.mem_cons.1 hj with h | h
          · exact absurd h.symm ha
          · exact h
        have := ih1 hjl
        simp only [List.flatMap_cons, List.length_append, Function.update_noteq ha]
        omega
    · intro hj
      have ha : a ≠ j := fun h => hj (h ▸ List.mem_cons_self _ _)
      have hjl : j ∉ l := fun h => hj (List.mem_cons_of_mem _ h)
      have := ih2 hjl
      simp only [List.flatMap_cons, List.length_append, Function.update_noteq ha]
      omega

theorem length_list_all_update (t : HashTable) (j : Fin TABLE_SIZE) (c : Chain) :
    (list_all (Function.update t j c)).length + (t j).length
      = (list_all t).length + c.length :=
  (length_flatMap_update t j c _ (List.nodup_finRange TABLE_SIZE)).1 (List.mem_finRange j)

/-! ## Stored text -/

theorem cstr_all_ne (buf : List Char) : ∀ c ∈ cstr buf, (c != NUL) = true := by
  intro c hc
  have hc' : c ∈ List.takeWhile (fun c => c != NUL) buf := hc
  have h := List.mem_takeWhile_imp hc'
  exact h

/-- The text read back from a field written by `strncpy(field, src, n); field[n] = 0`
is the first `n` characters of the text of `src`. -/
theorem cstr_strncpy (src : List Char) (n : Nat) :
    cstr (strncpy src n ++ [NUL]) = (cstr src).take n := by
  unfold strncpy
  have hall : ∀ c ∈ (cstr src).take n, (c != NUL) = true :=
    fun c hc => cstr_all_ne src c (List.mem_of_mem_take hc)
  have htail : ∀ k : Nat, List.takeWhile (fun c => c != NUL)
      (List.replicate k NUL ++ [NUL]) = [] := by
    intro k
    cases k with
    | zero => simp [List.takeWhile]
    | succ k => simp [List.replicate_succ, List.takeWhile]
  show List.takeWhile (fun c => c != NUL) _ = _
  rw [List.append_assoc, List.takeWhile_append_of_pos hall, htail, List.append_nil]

theorem view_create_node (id : Int) (name grade : List Char) :
    view (create_node id name grade) = (id, (cstr name).take 49, (cstr grade).take 4) := by
  simp [view, create_node, cstr_strncpy]

/-! ## Searching a well-formed store -/

theorem search_student_of_mem {t : HashTable} (hp : Placed t) (hu : ChainUniq t)
    {s : Student} (hs : s ∈ list_all t) : search_student t s.id = some (some s) := by
  obtain ⟨i, hi⟩ := (mem_list_all t s).1 hs
  unfold search_student
  rw [hp i s hi]
  simp only
  rw [search_chain_of_mem (hu i) hi]

theorem reachable_store_alice : Reachable store_alice :=
  Reachable.insert 101 ['A', 'l', 'i', 'c', 'e'] ['A'] Reachable.init rfl

theorem reachable_store_collide : Reachable store_collide :=
  Reachable.insert 101 ['c'] ['C']
    (Reachable.insert 51 ['b'] ['B']
      (Reachable.insert 1 ['a'] ['A'] Reachable.init
        (show _ = some (Status.success, store_one) from rfl))
      (show _ = some (Status.success, store_two) from rfl))
    (show _ = some (Status.success, store_collide) from rfl)

/-! ## Insert followed by search, for identifiers whose bucket exists -/

theorem not_present_has_id {t : HashTable} {id : Int} (h : ¬ present t id)
    (i : Fin TABLE_SIZE) : has_id id (t i) = false := by
  rw [← Bool.not_eq_true]
  exact fun hh => h ((present_iff t id).2 ⟨i, hh⟩)

/-- When `hashTable[hash(id)]` is inside the array and its chain has no node with `id`,
the insert succeeds and the search then returns the new node, whose printed form is the
identifier with the name cut to 49 and the grade cut to 4 characters. -/
theorem insert_then_search {t : HashTable} {id : Int} {i : Fin TABLE_SIZE}
    (hs : slot (hash id) = some i) (hn : has_id id (t i) = false)
    (name grade : List Char) :
    insert_student t id name grade
        = some (Status.success, Function.update t i (create_node id name grade :: t i)) ∧
    search_student (Function.update t i (create_node id name grade :: t i)) id
        = some (some (create_node id name grade)) ∧
    view (create_node id name grade) = (id, (cstr name).take 49, (cstr grade).take 4) := by
  refine ⟨?_, ?_, view_create_node id name grade⟩
  · simp [insert_student, hs, hn]
  · simp [search_student, hs, search_chain, create_node]

/-! ## Frame of an insert, and sequences of inserts -/

/-- An insert of `id` does not change what a search for another identifier returns. -/
theorem search_student_insert {t t' : HashTable} {id id' : Int} {name grade : List Char}
    {st : Status} (hne : id ≠ id') (h : insert_student t id name grade = some (st, t')) :
    search_student t' id' = search_student t id' := by
  obtain ⟨i, _, hc | hc⟩ := insert_student_cases h
  · rw [hc.2.2]
  · rw [hc.2.2]
    unfold search_student
    cases hs' : slot (hash id') with
    | none => rfl
    | some j =>
      simp only
      by_cases hj : j = i
      · subst hj
        rw [Function.update_same]
        have : (create_node id name grade).id ≠ id' := hne
        simp [search_chain, this]
      · rw [Function.update_noteq hj]

theorem present_of_insert {t t' : HashTable} {id k : Int} {name grade : List Char}
    {st : Status} (h : insert_student t id name grade = some (st, t'))
    (hk : present t' k) : present t k ∨ k = id := by
  obtain ⟨i, _, hc | hc⟩ := insert_student_cases h
  · rw [hc.2.2] at hk; exact Or.inl hk
  · rw [hc.2.2, present_iff] at hk
    obtain ⟨j, hj⟩ := hk
    by_cases hji : j = i
    · subst hji
      rw [Function.update_same] at hj
      by_cases hkid : id = k
      · exact Or.inr hkid.symm
      · have : (create_node id name grade).id ≠ k := hkid
        simp only [has_id, this, if_false] at hj
        exact Or.inl ((present_iff t k).2 ⟨j, hj⟩)
    · rw [Function.update_noteq hji] at hj
      exact Or.inl ((present_iff t k).2 ⟨j, hj⟩)

/-- Inserting pairwise distinct identifiers, each with a bucket inside the array and
none present beforehand: every insert succeeds, every inserted identifier is then found
with the node created for it, and searches for other identifiers are unaffected. -/
theorem insert_seq_distinct (ops : List (Int × List Char × List Char)) :
    (ops.map (fun op => op.1)).Nodup →
    (∀ op ∈ ops, ∃ i, slot (hash op.1) = some i) →
    ∀ t : HashTable, (∀ op ∈ ops, ¬ present t op.1) →
    ∃ t', insert_seq t ops = some (List.replicate ops.length Status.success, t') ∧
      (∀ op ∈ ops, search_student t' op.1
        = some (some (create_node op.1 op.2.1 op.2.2))) ∧
      (∀ k, (∀ op ∈ ops, op.1 ≠ k) → search_student t' k = search_student t k) := by
  induction ops with
  | nil =>
    intro _ _ t _
    exact ⟨t, rfl, by simp, fun _ _ => rfl⟩
  | cons op rest ih =>
    intro hnd hv t hnp
    obtain ⟨id, name, grade⟩ := op
    simp only [List.map_cons, List.nodup_cons] at hnd
    obtain ⟨i, hs⟩ := hv (id, name, grade) (List.mem_cons_self _ _)
    have hn := not_present_has_id (hnp (id, name, grade) (List.mem_cons_self _ _)) i
    obtain ⟨hins, hfind, _⟩ := insert_then_search hs hn name grade
    have hnp1 : ∀ op ∈ rest,
        ¬ present (Function.update t i (create_node id name grade :: t i)) op.1 := by
      intro op hop hpres
      rcases present_of_insert hins hpres with h | h
      · exact hnp op (List.mem_cons_of_mem _ hop) h
      · exact hnd.1 (List.mem_map.2 ⟨op, hop, h⟩)
    obtain ⟨t', hseq, hall, hframe⟩ :=
      ih hnd.2 (fun op hop => hv op (List.mem_cons_of_mem _ hop)) _ hnp1
    refine ⟨t', ?_, ?_, ?_⟩
    · simp [insert_seq, hins, hseq, List.replicate_succ]
    · intro op hop
      rcases List.mem_cons.1 hop with rfl | hop
      · have hk : ∀ op ∈ rest, op.1 ≠ id := by
          intro op hop heq
          exact hnd.1 (List.mem_map.2 ⟨op, hop, heq⟩)
        rw [hframe id hk]
        exact hfind
      · exact hall op hop
    · intro k hk
      rw [hframe k (fun op hop => hk op (List.mem_cons_of_mem _ hop))]
      exact search_student_insert (hk (id, name, grade) (List.mem_cons_self _ _)) hins

theorem not_present_init (id : Int) : ¬ present initialize_table id := by
  rw [present_iff]
  rintro ⟨i, hi⟩
  simp [initialize_table, has_id] at hi

/-! ## Range of `hash`, frame of a delete, and row counts -/

/-- For a non-negative identifier `hash` is the non-negative remainder and lies in
`0 .. TABLE_SIZE - 1`. -/
theorem hash_of_nonneg {id : Int} (h : 0 ≤ id) :
    0 ≤ hash id ∧ hash id < 50 ∧ hash id = id % 50 :=
  ⟨Int.tmod_nonneg _ h, Int.tmod_lt_of_pos id (by decide),
    Int.tmod_eq_emod h (by decide)⟩

/-- A delete of `id` does not change what a search for another identifier returns. -/
theorem search_student_delete_ne {t t' : HashTable} {id id' : Int} {st : Status}
    (hne : id ≠ id') (h : delete_student t id = some (st, t')) :
    search_student t' id' = search_student t id' := by
  obtain ⟨i, _, hc | ⟨c, hd, _, ht⟩⟩ := delete_student_cases h
  · rw [hc.2.2]
  · rw [ht]
    unfold search_student
    cases hs' : slot (hash id') with
    | none => rfl
    | some j =>
      simp only
      by_cases hj : j = i
      · subst hj
        rw [Function.update_same, search_chain_delete_chain hne hd]
      · rw [Function.update_noteq hj]

theorem length_list_all_insert {t t' : HashTable} {id : Int} {name grade : List Char}
    (h : insert_student t id name grade = some (Status.success, t')) :
    (list_all t').length = (list_all t).length + 1 := by
  obtain ⟨i, _, hc | hc⟩ := insert_student_cases h
  · cases hc.2.1
  · rw [hc.2.2]
    have := length_list_all_update t i (create_node id name grade :: t i)
    simp only [List.length_cons] at this
    omega

theorem length_list_all_insert_seq (ops : List (Int × List Char × List Char)) :
    ∀ (t t' : HashTable) (sts : List Status), insert_seq t ops = some (sts, t') →
      (∀ st ∈ sts, st = Status.success) →
      (list_all t').length = (list_all t).length + ops.length := by
  induction ops with
  | nil =>
    intro t t' sts h _
    simp only [insert_seq, Option.some.injEq, Prod.mk.injEq] at h
    simp [← h.2]
  | cons op rest ih =>
    intro t t' sts h hall
    obtain ⟨id, name, grade⟩ := op
    unfold insert_seq at h
    cases h1 : insert_student t id name grade with
    | none => simp [h1] at h
    | some r =>
      obtain ⟨st, t1⟩ := r
      cases h2 : insert_seq t1 rest with
      | none => simp [h1, h2] at h
      | some r2 =>
        obtain ⟨sts2, t2⟩ := r2
        simp only [h1, h2, Option.some.injEq, Prod.mk.injEq] at h
        obtain ⟨hsts, ht2⟩ := h
        subst hsts ht2
        have hst : st = Status.success := hall st (List.mem_cons_self _ _)
        subst hst
        have hrest := ih t1 t2 sts2 h2 (fun s hs => hall s (List.mem_cons_of_mem _ hs))
        have hone := length_list_all_insert h1
        simp only [List.length_cons]
        omega

/-! ## The listing and clean-up loops -/

theorem display_while_eq (c : Chain) (acc : List Student × Nat) :
    display_while c acc = (acc.1 ++ c, acc.2 + c.length) := by
  induction c generalizing acc with
  | nil => simp [display_while]
  | cons n rest ih =>
    simp only [display_while, ih, List.append_assoc, List.singleton_append,
      List.length_cons]
    congr 1
    omega

theorem teardown_while_eq (c : Chain) (freed : List Student) :
    teardown_while c freed = freed ++ c := by
  induction c generalizing freed with
  | nil => simp [teardown_while]
  | cons n rest ih => simp [teardown_while, ih]

theorem finRange_drop_cons {i : Nat} (h : i < TABLE_SIZE) :
    (List.finRange TABLE_SIZE).drop i
      = (⟨i, h⟩ : Fin TABLE_SIZE) :: (List.finRange TABLE_SIZE).drop (i + 1) := by
  have hl : i < (List.finRange TABLE_SIZE).length := by
    rw [List.length_finRange]; exact h
  rw [List.drop_eq_getElem_cons hl, List.getElem_finRange]
  rfl

theorem finRange_drop_nil {i : Nat} (h : ¬ i < TABLE_SIZE) :
    (List.finRange TABLE_SIZE).drop i = [] := by
  apply List.drop_eq_nil_of_le
  rw [List.length_finRange]
  omega

/-- The indices still to be visited after index `i` are all above `i`. -/
theorem lt_of_mem_finRange_drop {i : Nat} (h : i < TABLE_SIZE) :
    ∀ j ∈ (List.finRange TABLE_SIZE).drop (i + 1), (⟨i, h⟩ : Fin TABLE_SIZE) < j := by
  have hp : ((List.finRange TABLE_SIZE).drop i).Pairwise (fun a b => a < b) :=
    (List.pairwise_lt_finRange TABLE_SIZE).sublist (List.drop_sublist _ _)
  rw [finRange_drop_cons h, List.pairwise_cons] at hp
  exact hp.1

/-- The outer listing loop started at index `i`, with enough iterations left to reach
`TABLE_SIZE`, appends the chains of the buckets `i, i + 1, ...` in this order and counts
their nodes. -/
theorem display_for_eq (t : HashTable) :
    ∀ (fuel i : Nat) (acc : List Student × Nat), TABLE_SIZE ≤ i + fuel →
      display_for t fuel i acc
        = (acc.1 ++ ((List.finRange TABLE_SIZE).drop i).flatMap t,
           acc.2 + (((List.finRange TABLE_SIZE).drop i).flatMap t).length) := by
  intro fuel
  induction fuel with
  | zero =>
    intro i acc hle
    have hi : ¬ i < TABLE_SIZE := by omega
    simp [display_for, finRange_drop_nil hi]
  | succ fuel ih =>
    intro i acc hle
    by_cases hi : i < TABLE_SIZE
    · rw [display_for, dif_pos hi, ih (i + 1) _ (by omega), display_while_eq,
        finRange_drop_cons hi]
      simp only [List.flatMap_cons, List.append_assoc, List.length_append]
      congr 1
      omega
    · rw [display_for, dif_neg hi]
      simp [finRange_drop_nil hi]

/-- The outer clean-up loop started at index `i`, with enough iterations left to reach
`TABLE_SIZE`, empties the buckets from `i` on, keeps the buckets below `i`, and releases
the nodes of the buckets `i, i + 1, ...` in this order. -/
theorem teardown_for_eq :
    ∀ (fuel i : Nat) (acc : HashTable × List Student), TABLE_SIZE ≤ i + fuel →
      teardown_for fuel i acc
        = ((fun j => if j.val < i then acc.1 j else []),
           acc.2 ++ ((List.finRange TABLE_SIZE).drop i).flatMap acc.1) := by
  intro fuel
  induction fuel with
  | zero =>
    intro i acc hle
    have hi : ¬ i < TABLE_SIZE := by omega
    have hf : (fun j : Fin TABLE_SIZE => if j.val < i then acc.1 j else []) = acc.1 := by
      funext j
      have := j.2
      rw [if_pos (by omega)]
    simp [teardown_for, finRange_drop_nil hi, hf]
  | succ fuel ih =>
    intro i acc hle
    by_cases hi : i < TABLE_SIZE
    · rw [teardown_for, dif_pos hi, ih (i + 1) _ (by omega), teardown_while_eq,
        finRange_drop_cons hi]
      have hcongr : ((List.finRange TABLE_SIZE).drop (i + 1)).flatMap
            (Function.update acc.1 ⟨i, hi⟩ [])
          = ((List.finRange TABLE_SIZE).drop (i + 1)).flatMap acc.1 := by
        apply List.flatMap_congr
        intro j hj
        have hlt := lt_of_mem_finRange_drop hi j hj
        rw [Function.update_noteq (ne_of_gt hlt)]
      have hfun : (fun j : Fin TABLE_SIZE =>
            if j.val < i + 1 then Function.update acc.1 ⟨i, hi⟩ [] j else [])
          = (fun j : Fin TABLE_SIZE => if j.val < i then acc.1 j else []) := by
        funext j
        by_cases h1 : j.val < i
        · have hne : j ≠ ⟨i, hi⟩ := fun he => by rw [he] at h1; exact absurd h1 (lt_irrefl _)
          rw [if_pos (by omega), if_pos h1, Function.update_noteq hne]
        · by_cases h2 : j.val = i
          · have he : j = ⟨i, hi⟩ := Fin.ext h2
            rw [if_pos (by omega), if_neg h1, he, Function.update_same]
          · rw [if_neg (by omega), if_neg h1]
      simp only [hcongr, hfun, List.flatMap_cons, List.append_assoc]
    · have hf : (fun j : Fin TABLE_SIZE => if j.val < i then acc.1 j else []) = acc.1 := by
        funext j
        have := j.2
        rw [if_pos (by omega)]
      rw [teardown_for, dif_neg hi]
      simp [finRange_drop_nil hi, hf]

theorem chains_concat_eq (t : HashTable) : chains_concat t = list_all t := by
  unfold chains_concat list_all
  rw [← List.map_coe_finRange, List.map_map, List.flatMap]
  congr 1

theorem display_for_full (t : HashTable) (fuel : Nat) (h : TABLE_SIZE ≤ fuel) :
    display_for t fuel 0 ([], 0) = (list_all t, (list_all t).length) := by
  rw [display_for_eq t fuel 0 _ (by omega)]
  simp [list_all]

theorem teardown_for_full (t : HashTable) (fuel : Nat) (h : TABLE_SIZE ≤ fuel) :
    teardown_for fuel 0 (t, []) = (initialize_table, list_all t) := by
  rw [teardown_for_eq fuel 0 _ (by omega)]
  simp only [Nat.not_lt_zero, if_false, List.drop_zero, List.nil_append]
  rfl

theorem list_all_init : list_all initialize_table = [] := by decide

theorem count_list_all (t : HashTable) (s : Student) :
    (list_all t).count s
      = ((List.finRange TABLE_SIZE).map (fun i => (t i).count s)).sum := by
  unfold list_all
  rw [List.flatMap, List.count_flatten, List.map_map]
  rfl

/-! ## Shape of a chain after a removal, and the full scan -/

/-- The removal loop unlinks the first node carrying `id`: the chain splits into the
nodes before it (none carrying `id`), that node, and the nodes after it, and the chain
left is the nodes before followed by the nodes after. -/
theorem delete_chain_split {id : Int} {c c' : Chain} (h : delete_chain id c = some c') :
    ∃ pre n post, c = pre ++ n :: post ∧ n.id = id ∧ (∀ s ∈ pre, s.id ≠ id) ∧
      c' = pre ++ post := by
  induction c generalizing c' with
  | nil => simp [delete_chain] at h
  | cons a rest ih =>
    by_cases ha : a.id = id
    · simp [delete_chain, ha] at h
      exact ⟨[], a, rest, rfl, ha, by simp, h.symm⟩
    · cases hd : delete_chain id rest with
      | none => simp [delete_chain, ha, hd] at h
      | some r =>
        simp [delete_chain, ha, hd] at h
        obtain ⟨pre, n, post, hc, hn, hpre, hr⟩ := ih hd
        refine ⟨a :: pre, n, post, by rw [hc]; rfl, hn, ?_, by rw [← h, hr]; rfl⟩
        intro s hs
        rcases List.mem_cons.1 hs with rfl | hs
        · exact ha
        · exact hpre s hs

theorem delete_chain_of_has_id {id : Int} {c : Chain} (h : has_id id c = true) :
    ∃ c', delete_chain id c = some c' := by
  cases hd : delete_chain id c with
  | none =>
    rw [delete_chain_eq_none, h] at hd
    cases hd
  | some c' => exact ⟨c', rfl⟩

/-- In a store with correct placement and chain-wise uniqueness, the single-bucket
search agrees with the full scan whenever `hashTable[hash(id)]` is inside the array. -/
theorem search_student_eq_scan {t : HashTable} (hp : Placed t) (hu : ChainUniq t)
    {id : Int} {i : Fin TABLE_SIZE} (hs : slot (hash id) = some i) :
    search_student t id = some (scan_all t id) := by
  have hsearch : search_student t id = some (search_chain id (t i)) := by
    simp [search_student, hs]
  rw [hsearch]
  congr 1
  unfold scan_all
  cases hf : (list_all t).find? (fun s => decide (s.id = id)) with
  | none =>
    rw [List.find?_eq_none] at hf
    rw [search_chain_eq_none, has_id_false_iff]
    intro s hmem hid
    exact hf s ((mem_list_all t s).2 ⟨i, hmem⟩) (by simpa using hid)
  | some s =>
    have hid : s.id = id := by simpa using List.find?_some hf
    have hmem : s ∈ list_all t := List.mem_of_find?_eq_some hf
    obtain ⟨j, hj⟩ := (mem_list_all t s).1 hmem
    have hslot := hp j s hj
    rw [hid, hs] at hslot
    have hij : i = j := Option.some.inj hslot
    subst hij
    rw [← hid]
    exact search_chain_of_mem (hu i) hj

theorem reachable_of_nonneg {t : HashTable} (h : ReachableNonneg t) : Reachable t := by
  induction h with
  | init => exact Reachable.init
  | insert id name grade _ _ hstep ih => exact Reachable.insert id name grade ih hstep
  | delete id _ _ hstep ih => exact Reachable.delete id ih hstep

theorem reachableNonneg_store_collide : ReachableNonneg store_collide :=
  ReachableNonneg.insert 101 ['c'] ['C']
    (ReachableNonneg.insert 51 ['b'] ['B']
      (ReachableNonneg.insert 1 ['a'] ['A'] ReachableNonneg.init (by decide)
        (show _ = some (Status.success, store_one) from rfl))
      (by decide) (show _ = some (Status.success, store_two) from rfl))
    (by decide) (show _ = some (Status.success, store_collide) from rfl)

/-! ## Claims -/

/-- C1: on a store reachable from the empty store, inserting an identifier that is
already present reports DuplicateId and returns the very same store, for every name and
grade and however many times the call is repeated; the search for the identifier returns
the record that was stored.  In any store, DuplicateId is reported only for an identifier
that is present, and the store is returned unchanged. -/
theorem insert_duplicate_noop (t : HashTable) (ht : Reachable t) (id : Int)
    (hp : present t id) :
    (∀ name grade, insert_student t id name grade = some (Status.duplicateId, t)) ∧
    (∀ attempts : List (List Char × List Char),
      insert_seq t (attempts.map (fun a => (id, a.1, a.2)))
        = some (List.replicate attempts.length Status.duplicateId, t)) ∧
    (∀ s ∈ list_all t, s.id = id → search_student t id = some (some s)) ∧
    (∀ (u u' : HashTable) (k : Int) (name grade : List Char),
      insert_student u k name grade = some (Status.duplicateId, u') →
        present u k ∧ u' = u) := by
  obtain ⟨hpl, hu⟩ := reachable_inv ht
  obtain ⟨i, hs, hh⟩ := present_placed hpl hp
  have hone : ∀ name grade, insert_student t id name grade = some (Status.duplicateId, t) := by
    intro name grade
    simp [insert_student, hs, hh]
  refine ⟨hone, ?_, ?_, ?_⟩
  · intro attempts
    induction attempts with
    | nil => simp [insert_seq]
    | cons a rest ih =>
      simp only [List.map_cons, insert_seq, hone, List.length_cons, List.replicate_succ]
      rw [ih]
  · intro s hs' hid
    rw [← hid]
    exact search_student_of_mem hpl hu hs'
  · intro u u' k name grade h
    obtain ⟨j, _, hc | hc⟩ := insert_student_cases h
    · exact ⟨(present_iff u k).2 ⟨j, hc.1⟩, hc.2.2⟩
    · cases hc.2.1

/-- Witness for C1 on the store holding (101, "Alice", "A"): a second insert of 101 as
("Bob", "B") is refused and the search still returns Alice's record. -/
theorem insert_duplicate_noop_witness :
    Reachable store_alice ∧ present store_alice 101 ∧
    insert_student store_alice 101 ['B', 'o', 'b'] ['B']
      = some (Status.duplicateId, store_alice) ∧
    search_student store_alice 101
      = some (some (create_node 101 ['A', 'l', 'i', 'c', 'e'] ['A'])) :=
  ⟨reachable_store_alice, by decide,
    (insert_duplicate_noop store_alice reachable_store_alice 101 (by decide)).1 _ _,
    (insert_duplicate_noop store_alice reachable_store_alice 101 (by decide)).2.2.1
      (create_node 101 ['A', 'l', 'i', 'c', 'e'] ['A']) (by decide) rfl⟩

/-- C2 (failing input): identifier -1 is not present in the empty store, yet
`hash(-1)` is -1, `hashTable[-1]` lies outside the array, and neither the insert of -1
nor a search for -1 has a defined result; for the non-negative identifier 7 the same
calls store and return the record with the name cut to 49 characters. -/
theorem insert_search_negative_id :
    ¬ present initialize_table (-1) ∧
    hash (-1) = -1 ∧ slot (hash (-1)) = none ∧
    (∀ name grade, insert_student initialize_table (-1) name grade = none) ∧
    (∀ t, search_student t (-1) = none) ∧
    (∀ name grade, ∃ t, insert_student initialize_table 7 name grade
        = some (Status.success, t) ∧
      ∃ s, search_student t 7 = some (some s) ∧
        view s = (7, (cstr name).take 49, (cstr grade).take 4)) := by
  refine ⟨by decide, by decide, by decide, fun _ _ => rfl, fun _ => rfl, ?_⟩
  intro name grade
  have h := @insert_then_search initialize_table 7 7 (by decide) rfl name grade
  exact ⟨_, h.1, _, h.2.1, h.2.2⟩

/-- C3: on a store reachable from the empty store, deleting an identifier that is
present reports success, after which the search for it returns not-found and no record
with that identifier remains in any bucket. -/
theorem delete_present_then_absent (t : HashTable) (ht : Reachable t) (id : Int)
    (hp : present t id) :
    ∃ t', delete_student t id = some (Status.success, t') ∧
      search_student t' id = some none ∧ ¬ present t' id := by
  obtain ⟨hpl, hu⟩ := reachable_inv ht
  obtain ⟨i, hs, hh⟩ := present_placed hpl hp
  cases hd : delete_chain id (t i) with
  | none =>
    rw [delete_chain_eq_none, hh] at hd
    cases hd
  | some c =>
    have hdel : delete_student t id = some (Status.success, Function.update t i c) := by
      simp [delete_student, hs, hd]
    have hgone : has_id id c = false := has_id_delete_chain (hu i) hd
    refine ⟨_, hdel, ?_, ?_⟩
    · simp [search_student, hs, search_chain_eq_none, hgone]
    · intro hp'
      obtain ⟨j, hs', hh'⟩ := present_placed (placed_delete hpl hdel) hp'
      rw [hs] at hs'
      have hij : i = j := Option.some.inj hs'
      subst hij
      rw [Function.update_same, hgone] at hh'
      cases hh'

/-- Witness for C3 on the store holding 1, 51 and 101 in one chain: deleting the
middle record 51 succeeds and leaves no record 51. -/
theorem delete_present_then_absent_witness :
    Reachable store_collide ∧ present store_collide 51 ∧
    ∃ t', delete_student store_collide 51 = some (Status.success, t') ∧
      search_student t' 51 = some none ∧ ¬ present t' 51 :=
  ⟨reachable_store_collide, by decide,
    delete_present_then_absent store_collide reachable_store_collide 51 (by decide)⟩

/-- C4 (failing input): the one-element sequence of identifiers -1 is pairwise
distinct, yet inserting it into the empty store has no defined result, because
`hashTable[hash(-1)]` is `hashTable[-1]`; the sequence 1, 51, 101 of identifiers with a
bucket inside the array is inserted with every call succeeding and every identifier
found afterwards with the node created for it. -/
theorem insert_seq_negative_id :
    (([(-1, ['a'], ['A'])] : List (Int × List Char × List Char)).map
        (fun op => op.1)).Nodup ∧
    insert_seq initialize_table [(-1, ['a'], ['A'])] = none ∧
    (∃ t, insert_seq initialize_table
          [(1, ['a'], ['A']), (51, ['b'], ['B']), (101, ['c'], ['C'])]
        = some ([Status.success, Status.success, Status.success], t) ∧
      search_student t 1 = some (some (create_node 1 ['a'] ['A'])) ∧
      search_student t 51 = some (some (create_node 51 ['b'] ['B'])) ∧
      search_student t 101 = some (some (create_node 101 ['c'] ['C']))) := by
  refine ⟨by decide, rfl, ?_⟩
  obtain ⟨t, h1, h2, _⟩ := insert_seq_distinct
    [(1, ['a'], ['A']), (51, ['b'], ['B']), (101, ['c'], ['C'])] (by decide)
    (by decide) initialize_table (fun op _ => not_present_init op.1)
  exact ⟨t, h1, h2 (1, ['a'], ['A']) (by simp), h2 (51, ['b'], ['B']) (by simp),
    h2 (101, ['c'], ['C']) (by simp)⟩

/-- C5 (failing input): for the identifier -1, `hash` returns -1, which is neither
inside `0 .. 49` nor the non-negative remainder 49 of -1 modulo 50, and `hashTable[-1]`
is not an element of the table; the same happens for -101, while 101 is hashed to 1. -/
theorem hash_negative_id :
    hash (-1) = -1 ∧ ¬ (0 ≤ hash (-1) ∧ hash (-1) < 50) ∧ (-1 : Int) % 50 = 49 ∧
    slot (hash (-1)) = none ∧
    hash (-101) = -1 ∧ (-101 : Int) % 50 = 49 ∧
    hash 101 = 1 ∧ slot (hash 101) = some 1 := by
  decide

/-- C6: when the bucket chain at index `hash(id)` holds no record with `id`, the delete
reports NotFound and returns the very same store; NotFound is reported only in that
case; and on a reachable store a delete repeated right after a successful delete of the
same identifier reports NotFound. -/
theorem delete_not_found (t : HashTable) (id : Int) :
    (∀ i, slot (hash id) = some i → has_id id (t i) = false →
      delete_student t id = some (Status.notFound, t)) ∧
    (∀ t', delete_student t id = some (Status.notFound, t') →
      t' = t ∧ ∃ i, slot (hash id) = some i ∧ has_id id (t i) = false) ∧
    (Reachable t → ∀ t', delete_student t id = some (Status.success, t') →
      delete_student t' id = some (Status.notFound, t')) := by
  refine ⟨?_, ?_, ?_⟩
  · intro i hs hn
    have hd := (delete_chain_eq_none id (t i)).2 hn
    simp [delete_student, hs, hd]
  · intro t' h
    obtain ⟨i, hs, hc | ⟨c, _, hst, _⟩⟩ := delete_student_cases h
    · exact ⟨hc.2.2, i, hs, (delete_chain_eq_none id (t i)).1 hc.1⟩
    · cases hst
  · intro ht t' h
    obtain ⟨i, hs, hc | ⟨c, hd, _, ht'⟩⟩ := delete_student_cases h
    · cases hc.2.1
    · have hgone : has_id id c = false := has_id_delete_chain ((reachable_inv ht).2 i) hd
      have hd' : delete_chain id (t' i) = none := by
        rw [ht', Function.update_same]
        exact (delete_chain_eq_none id c).2 hgone
      simp [delete_student, hs, hd']

/-- Witness for C6: deleting 51 from the store holding only 101 (both in bucket 1)
reports NotFound and returns that store; after deleting 101 a second delete of 101
reports NotFound. -/
theorem delete_not_found_witness :
    slot (hash 51) = some 1 ∧ has_id 51 (store_alice 1) = false ∧
    delete_student store_alice 51 = some (Status.notFound, store_alice) ∧
    Reachable store_alice ∧
    delete_student store_alice 101
      = some (Status.success, Function.update store_alice 1 []) ∧
    delete_student (Function.update store_alice 1 []) 101
      = some (Status.notFound, Function.update store_alice 1 []) :=
  ⟨by decide, by decide,
    (delete_not_found store_alice 51).1 1 (by decide) (by decide),
    reachable_store_alice, rfl,
    (delete_not_found store_alice 101).2.2 reachable_store_alice _ rfl⟩

/-- C7: for distinct identifiers `id` and `id'`, a delete of `id` leaves the result of
the search for `id'` unchanged, wherever in its chain the deleted node stood. -/
theorem search_student_delete (t t' : HashTable) (id id' : Int) (st : Status)
    (hne : id ≠ id') (h : delete_student t id = some (st, t')) :
    search_student t' id' = search_student t id' :=
  search_student_delete_ne hne h

/-- Witness for C7 with M = 50: after inserting 1, 51 and 101 (all in bucket 1) and
deleting 51, the searches for 1 and for 101 still return their original records. -/
theorem search_student_delete_witness :
    delete_student store_collide 51 = some (Status.success,
      Function.update store_collide 1
        [create_node 101 ['c'] ['C'], create_node 1 ['a'] ['A']]) ∧
    search_student (Function.update store_collide 1
        [create_node 101 ['c'] ['C'], create_node 1 ['a'] ['A']]) 1
      = some (some (create_node 1 ['a'] ['A'])) ∧
    search_student (Function.update store_collide 1
        [create_node 101 ['c'] ['C'], create_node 1 ['a'] ['A']]) 101
      = some (some (create_node 101 ['c'] ['C'])) :=
  ⟨rfl,
    (search_student_delete store_collide _ 51 1 Status.success (by decide) rfl).trans rfl,
    (search_student_delete store_collide _ 51 101 Status.success (by decide) rfl).trans rfl⟩

/-- C8: in every store reachable from the empty store by insert and delete calls of
any outcome, the identifiers listed by `list_all` are pairwise distinct; this holds for
the empty store and still holds after any further insert or delete call. -/
theorem unique_ids (t : HashTable) (ht : Reachable t) :
    ((list_all initialize_table).map Student.id).Nodup ∧
    ((list_all t).map Student.id).Nodup ∧
    (∀ (id : Int) (name grade : List Char) (st : Status) (t' : HashTable),
      insert_student t id name grade = some (st, t') →
        ((list_all t').map Student.id).Nodup) ∧
    (∀ (id : Int) (st : Status) (t' : HashTable),
      delete_student t id = some (st, t') → ((list_all t').map Student.id).Nodup) := by
  have key : ∀ u, Reachable u → ((list_all u).map Student.id).Nodup :=
    fun u hu => nodup_ids_of_inv (reachable_inv hu).1 (reachable_inv hu).2
  exact ⟨key _ Reachable.init, key t ht,
    fun id name grade _ _ h => key _ (Reachable.insert id name grade ht h),
    fun id _ _ h => key _ (Reachable.delete id ht h)⟩

/-- Witness for C8 on the store holding 1, 51 and 101 in one chain. -/
theorem unique_ids_witness :
    Reachable store_collide ∧ ((list_all store_collide).map Student.id).Nodup :=
  ⟨reachable_store_collide, (unique_ids store_collide reachable_store_collide).2.1⟩

/-- C9: in every store reachable from the empty store by insert and delete calls, a
record found in bucket `i` has an identifier whose non-negative remainder modulo 50 is
`i`, and `i` is the bucket `hash` designates for it; every listed record lies in exactly
one chain and is listed exactly once. -/
theorem bucket_placement (t : HashTable) (ht : Reachable t) :
    (∀ i, ∀ s ∈ t i, s.id % 50 = (i : Int) ∧ slot (hash s.id) = some i) ∧
    (∀ s ∈ list_all t, ∃! i, s ∈ t i) ∧
    (∀ s ∈ list_all t, (list_all t).count s = 1) := by
  obtain ⟨hp, hu⟩ := reachable_inv ht
  refine ⟨fun i s hs => ⟨slot_hash_emod (hp i s hs), hp i s hs⟩, ?_, ?_⟩
  · intro s hs
    obtain ⟨i, hi⟩ := (mem_list_all t s).1 hs
    exact ⟨i, hi, fun j hj => slot_eq_of_placed hp hj hi⟩
  · intro s hs
    exact List.count_eq_one_of_mem (nodup_ids_of_inv hp hu).of_map hs

/-- Witness for C9 on the store holding 1, 51 and 101: all three lie in bucket 1. -/
theorem bucket_placement_witness :
    Reachable store_collide ∧
    ∀ i, ∀ s ∈ store_collide i, s.id % 50 = (i : Int) ∧ slot (hash s.id) = some i :=
  ⟨reachable_store_collide, (bucket_placement store_collide reachable_store_collide).1⟩

/-- C10: on the empty store `display_all_students` lists no row and prints the
no-records line; after a sequence of N inserts into the empty store that all succeed it
lists exactly N rows; and every successful insert into any store makes the listing one
row longer. -/
theorem list_all_count (ops : List (Int × List Char × List Char)) (sts : List Status)
    (t : HashTable) (hrun : insert_seq initialize_table ops = some (sts, t))
    (hok : ∀ st ∈ sts, st = Status.success) :
    display_all_students initialize_table = ([], true) ∧
    (display_all_students t).1.length = ops.length ∧
    ((display_all_students t).2 = true ↔ ops.length = 0) ∧
    (∀ (u u' : HashTable) (id : Int) (name grade : List Char),
      insert_student u id name grade = some (Status.success, u') →
        (display_all_students u').1.length = (display_all_students u).1.length + 1) := by
  have hlen := length_list_all_insert_seq ops initialize_table t sts hrun hok
  have h0 : list_all initialize_table = [] := by decide
  rw [h0] at hlen
  simp only [List.length_nil, Nat.zero_add] at hlen
  refine ⟨?_, ?_, ?_, ?_⟩
  · simp [display_all_students, h0]
  · simpa [display_all_students] using hlen
  · simp [display_all_students, hlen]
  · intro u u' id name grade h
    simpa [display_all_students] using length_list_all_insert h

/-- Witness for C10: inserting 1, 51 and 101 into the empty store, all successfully,
gives a listing of three rows. -/
theorem list_all_count_witness :
    insert_seq initialize_table ops_collide
      = some ([Status.success, Status.success, Status.success], store_collide) ∧
    (display_all_students store_collide).1.length = 3 :=
  ⟨rfl, (list_all_count ops_collide [Status.success, Status.success, Status.success]
    store_collide rfl (by decide)).2.1⟩

/-- C11: for every store, the rows printed by the loops of `display_all_students` are
the concatenation of the bucket chains for the indices 0, 1, ..., 49 in increasing
order, each chain from head to tail; the loop needs no more than `TABLE_SIZE`
iterations; and every record is printed exactly as often as it occurs in the chains. -/
theorem display_order (t : HashTable) :
    (display_for t TABLE_SIZE 0 ([], 0)).1 = chains_concat t ∧
    (∀ fuel, TABLE_SIZE ≤ fuel →
      display_for t fuel 0 ([], 0) = display_for t TABLE_SIZE 0 ([], 0)) ∧
    display_all_students_run t = display_all_students t ∧
    list_all t = chains_concat t ∧
    (List.finRange TABLE_SIZE).map Fin.val = List.range TABLE_SIZE ∧
    (∀ s, (list_all t).count s
      = ((List.finRange TABLE_SIZE).map (fun i => (t i).count s)).sum) := by
  refine ⟨?_, ?_, ?_, (chains_concat_eq t).symm, List.map_coe_finRange _,
    count_list_all t⟩
  · rw [display_for_full t TABLE_SIZE (le_refl _), chains_concat_eq]
  · intro fuel h
    rw [display_for_full t fuel h, display_for_full t TABLE_SIZE (le_refl _)]
  · simp [display_all_students_run, display_all_students,
      display_for_full t TABLE_SIZE (le_refl _)]

/-- Witness for C11 on the store holding 101, 51, 1 in bucket 1: the loops, given more
iterations than needed, print the three records in chain order. -/
theorem display_order_witness :
    TABLE_SIZE ≤ 60 ∧
    display_for store_collide 60 0 ([], 0)
      = ([create_node 101 ['c'] ['C'], create_node 51 ['b'] ['B'],
          create_node 1 ['a'] ['A']], 3) :=
  ⟨by decide, ((display_order store_collide).2.1 60 (by decide)).trans (by decide)⟩

/-- C12: for every store, the exit clean-up leaves every bucket head empty, which is
the freshly initialised store, and releases exactly the listed nodes; on the empty
store it changes nothing and releases nothing; and running it twice gives the same
store as running it once. -/
theorem teardown_resets (t : HashTable) :
    (teardown t).1 = initialize_table ∧
    (∀ i, (teardown t).1 i = []) ∧
    (teardown t).2 = list_all t ∧
    teardown initialize_table = (initialize_table, []) ∧
    (teardown (teardown t).1).1 = (teardown t).1 := by
  have h : ∀ u, teardown u = (initialize_table, list_all u) :=
    fun u => teardown_for_full u TABLE_SIZE (le_refl _)
  refine ⟨by rw [h], ?_, by rw [h], by rw [h, list_all_init], by rw [h, h]⟩
  intro i
  rw [h]
  rfl

/-- C13: the concrete scenario with M = 50 from the empty store: inserting
(101, "Alice", "A") succeeds; inserting (101, "Bob", "B") is refused with DuplicateId
and the search for 101 still prints ("Alice", "A"); deleting 101 succeeds; the search
for 101 then returns not-found; a second delete of 101 reports NotFound; and the store
is the empty store. -/
theorem scenario_alice :
    insert_student initialize_table 101 ['A', 'l', 'i', 'c', 'e'] ['A']
      = some (Status.success, store_alice) ∧
    insert_student store_alice 101 ['B', 'o', 'b'] ['B']
      = some (Status.duplicateId, store_alice) ∧
    (search_student store_alice 101).map (Option.map view)
      = some (some (101, ['A', 'l', 'i', 'c', 'e'], ['A'])) ∧
    delete_student store_alice 101
      = some (Status.success, Function.update store_alice 1 []) ∧
    search_student (Function.update store_alice 1 []) 101 = some none ∧
    delete_student (Function.update store_alice 1 []) 101
      = some (Status.notFound, Function.update store_alice 1 []) ∧
    Function.update store_alice 1 [] = initialize_table := by
  refine ⟨rfl, rfl, by decide, rfl, rfl, rfl, ?_⟩
  unfold store_alice
  rw [Function.update_idem]
  exact Function.update_eq_self 1 initialize_table

/-- C14: when the chain at index `hash(id)` holds no record with `id`, the insert
succeeds, the new record becomes the first element of that chain followed by the
previous chain in its previous order, and every other bucket keeps its chain; a second
such insert into the same bucket puts its record in front of the first one, so a chain
lists its records most recently inserted first. -/
theorem insert_at_head (t : HashTable) (id : Int) (name grade : List Char)
    (i : Fin TABLE_SIZE) (hs : slot (hash id) = some i) (hn : has_id id (t i) = false) :
    ∃ t', insert_student t id name grade = some (Status.success, t') ∧
      t' i = create_node id name grade :: t i ∧
      (∀ j, j ≠ i → t' j = t j) ∧
      (∀ (id2 : Int) (name2 grade2 : List Char), slot (hash id2) = some i →
        has_id id2 (t' i) = false →
        ∃ t'', insert_student t' id2 name2 grade2 = some (Status.success, t'') ∧
          t'' i = create_node id2 name2 grade2 :: create_node id name grade :: t i ∧
          (∀ j, j ≠ i → t'' j = t j)) := by
  refine ⟨Function.update t i (create_node id name grade :: t i), ?_, ?_, ?_, ?_⟩
  · simp [insert_student, hs, hn]
  · rw [Function.update_same]
  · intro j hj
    rw [Function.update_noteq hj]
  · intro id2 name2 grade2 hs2 hn2
    refine ⟨Function.update (Function.update t i (create_node id name grade :: t i)) i
      (create_node id2 name2 grade2 ::
        Function.update t i (create_node id name grade :: t i) i), ?_, ?_, ?_⟩
    · simp only [insert_student, hs2, hn2]
      rfl
    · rw [Function.update_same, Function.update_same]
    · intro j hj
      rw [Function.update_noteq hj, Function.update_noteq hj]

/-- Witness for C14: inserting 51 into the store holding 1 (both in bucket 1) puts 51
in front of 1. -/
theorem insert_at_head_witness :
    slot (hash 51) = some 1 ∧ has_id 51 (store_one 1) = false ∧
    ∃ t', insert_student store_one 51 ['b'] ['B'] = some (Status.success, t') ∧
      t' 1 = [create_node 51 ['b'] ['B'], create_node 1 ['a'] ['A']] :=
  ⟨by decide, by decide,
    (insert_at_head store_one 51 ['b'] ['B'] 1 (by decide) (by decide)).imp
      (fun _ h => ⟨h.1, h.2.1⟩)⟩

/-- C15: for distinct identifiers `id` and `id'`, an insert of `id` leaves the result
of the search for `id'` unchanged, whether the insert succeeds or is refused with
DuplicateId, also when both identifiers fall into the same bucket. -/
theorem search_student_insert_frame (t t' : HashTable) (id id' : Int)
    (name grade : List Char) (st : Status) (hne : id ≠ id')
    (h : insert_student t id name grade = some (st, t')) :
    search_student t' id' = search_student t id' :=
  search_student_insert hne h

/-- Witness for C15: inserting 101 into the store holding 1 and 51 (all in bucket 1)
succeeds and inserting 51 again is refused; the search for 1 returns the same record
in both cases. -/
theorem search_student_insert_frame_witness :
    insert_student store_two 101 ['c'] ['C'] = some (Status.success, store_collide) ∧
    search_student store_collide 1 = search_student store_two 1 ∧
    insert_student store_two 51 ['x'] ['X'] = some (Status.duplicateId, store_two) ∧
    search_student store_two 1 = some (some (create_node 1 ['a'] ['A'])) :=
  ⟨rfl,
    search_student_insert_frame store_two store_collide 101 1 ['c'] ['C'] Status.success
      (by decide) rfl,
    rfl,
    (search_student_insert_frame store_two store_two 51 1 ['x'] ['X'] Status.duplicateId
      (by decide) rfl).trans rfl⟩

/-- C16: on a store reachable from the empty store by insert and delete calls with
non-negative identifiers, and for a non-negative identifier, the single-bucket search
returns what a full scan of the listing returns: it succeeds exactly when a record with
that identifier occurs in the listing, and it returns that occurrence. -/
theorem search_agrees_with_scan (t : HashTable) (ht : ReachableNonneg t) (id : Int)
    (hid : 0 ≤ id) :
    search_student t id = some (scan_all t id) ∧
    ((∃ s, search_student t id = some (some s)) ↔ present t id) ∧
    (∀ s ∈ list_all t, s.id = id → search_student t id = some (some s)) := by
  obtain ⟨hp, hu⟩ := reachable_inv (reachable_of_nonneg ht)
  obtain ⟨i, hs⟩ := slot_hash_of_nonneg hid
  have hscan := search_student_eq_scan hp hu hs
  have hall : ∀ s ∈ list_all t, s.id = id → search_student t id = some (some s) := by
    intro s hmem hsid
    rw [← hsid]
    exact search_student_of_mem hp hu hmem
  refine ⟨hscan, ⟨?_, ?_⟩, hall⟩
  · rintro ⟨s, hfound⟩
    rw [hscan] at hfound
    have hf : scan_all t id = some s := Option.some.inj hfound
    unfold scan_all at hf
    exact ⟨s, List.mem_of_find?_eq_some hf, by simpa using List.find?_some hf⟩
  · rintro ⟨s, hmem, hsid⟩
    exact ⟨s, hall s hmem hsid⟩

/-- Witness for C16 on the store holding 1, 51 and 101: the search for 51 returns the
record the full scan finds. -/
theorem search_agrees_with_scan_witness :
    ReachableNonneg store_collide ∧ (0 : Int) ≤ 51 ∧
    search_student store_collide 51 = some (scan_all store_collide 51) ∧
    scan_all store_collide 51 = some (create_node 51 ['b'] ['B']) :=
  ⟨reachableNonneg_store_collide, by decide,
    (search_agrees_with_scan store_collide reachableNonneg_store_collide 51
      (by decide)).1,
    by decide⟩

/-- C17: when the chain at index `hash(id)` holds a record with `id`, the delete
succeeds and removes exactly the first such record of that chain, keeping the records
before it and after it in their order; every other bucket keeps its chain; and the
listing becomes exactly one row shorter. -/
theorem delete_removes_first (t : HashTable) (id : Int) (i : Fin TABLE_SIZE)
    (hs : slot (hash id) = some i) (hh : has_id id (t i) = true) :
    ∃ t', delete_student t id = some (Status.success, t') ∧
      (∃ pre n post, t i = pre ++ n :: post ∧ n.id = id ∧ (∀ s ∈ pre, s.id ≠ id) ∧
        t' i = pre ++ post) ∧
      (∀ j, j ≠ i → t' j = t j) ∧
      (list_all t').length + 1 = (list_all t).length := by
  obtain ⟨c, hd⟩ := delete_chain_of_has_id hh
  refine ⟨Function.update t i c, by simp [delete_student, hs, hd], ?_, ?_, ?_⟩
  · obtain ⟨pre, n, post, hc, hn, hpre, hc'⟩ := delete_chain_split hd
    exact ⟨pre, n, post, hc, hn, hpre, by rw [Function.update_same, hc']⟩
  · intro j hj
    rw [Function.update_noteq hj]
  · have h1 := length_list_all_update t i c
    have h2 := delete_chain_length hd
    omega

/-- Witness for C17 on the store holding 101, 51, 1 in bucket 1: deleting 51 leaves
the chain 101, 1. -/
theorem delete_removes_first_witness :
    slot (hash 51) = some 1 ∧ has_id 51 (store_collide 1) = true ∧
    delete_student store_collide 51 = some (Status.success,
      Function.update store_collide 1
        [create_node 101 ['c'] ['C'], create_node 1 ['a'] ['A']]) ∧
    ∃ t', delete_student store_collide 51 = some (Status.success, t') ∧
      (list_all t').length + 1 = (list_all store_collide).length :=
  ⟨by decide, by decide, rfl,
    (delete_removes_first store_collide 51 1 (by decide) (by decide)).imp
      (fun _ h => ⟨h.1, h.2.2.2⟩)⟩

/-- C18: when the chain at index `hash(id)` holds no record with `id`, the insert
succeeds and a delete of `id` right after it succeeds and returns exactly the store
from before the insert. -/
theorem insert_delete_roundtrip (t : HashTable) (id : Int) (name grade : List Char)
    (i : Fin TABLE_SIZE) (hs : slot (hash id) = some i) (hn : has_id id (t i) = false) :
    ∃ t1, insert_student t id name grade = some (Status.success, t1) ∧
      delete_student t1 id = some (Status.success, t) := by
  refine ⟨Function.update t i (create_node id name grade :: t i), ?_, ?_⟩
  · simp [insert_student, hs, hn]
  · have hd : delete_chain id
        (Function.update t i (create_node id name grade :: t i) i) = some (t i) := by
      rw [Function.update_same]
      simp [delete_chain, create_node]
    simp only [delete_student, hs, hd, Function.update_idem, Function.update_eq_self]

/-- Witness for C18: inserting 101 into the store holding 1 and 51 and deleting it
again gives back that store. -/
theorem insert_delete_roundtrip_witness :
    slot (hash 101) = some 1 ∧ has_id 101 (store_two 1) = false ∧
    ∃ t1, insert_student store_two 101 ['c'] ['C'] = some (Status.success, t1) ∧
      delete_student t1 101 = some (Status.success, store_two) :=
  ⟨by decide, by decide,
    insert_delete_roundtrip store_two 101 ['c'] ['C'] 1 (by decide) (by decide)⟩

end StudentStore
